import Mathlib

set_option maxRecDepth 40000

/-!
Verification of the NetNeighbors domain-discovery code: a shallow embedding of
the discovery engine (`graph_bridge.py`), the Gradio front end (`app.py`), the
legacy validator (`webgraph_discovery.py`), the Dash network visualizer
(`discovery_network_vis.py`) and the link-spam example
(`examples/link_spam.py`), together with theorems about their behaviour.
-/

namespace NetNeighbors

/-- A row of the discovery result table: `domain` and `connections`.
The `percentage` column of the Python dict (a float rounded to two decimals)
is omitted from the embedding: it is derived from `connections` and the seed
count and no claim concerns it. -/
structure Row where
  domain : String
  connections : Nat
deriving DecidableEq, Repr

/-- The loaded Graph Store interface used by `GraphBridge` (the cc-webgraph
`Graph` object): label/id maps (`vertexLabelToId` returns a negative id when
the label is absent), adjacency queries, and the server-side
`sharedPredecessors` / `sharedSuccessors` filters. -/
structure Store where
  labelToId : String → Int
  idToLabel : Int → Option String
  preds : Int → List Int
  succs : Int → List Int
  sharedPreds : List Int → Nat → Nat → List Int
  sharedSuccs : List Int → Nat → Nat → List Int

/-- Python `str.lower()` on one character (ASCII case mapping), written with
structural recursion only so that concrete proofs can evaluate it. -/
def asciiLower (c : Char) : Char :=
  if 'A' ≤ c ∧ c ≤ 'Z' then Char.ofNat (c.toNat + 32) else c

/-- The whitespace characters removed by Python `str.strip()`. -/
def isSpaceChar (c : Char) : Bool :=
  c = ' ' || c = '\t' || c = '\n' || c = '\r' || c = '\x0b' || c = '\x0c'

/-- Python `str.strip()`: drop whitespace from both ends. -/
def pyStrip (s : String) : String :=
  String.mk (((s.data.dropWhile isSpaceChar).reverse.dropWhile
    isSpaceChar).reverse)

/-- Python `str.lower()` (ASCII range). -/
def pyLower (s : String) : String := String.mk (s.data.map asciiLower)

/-- Python `str.split(sep)` for a one-character separator: empty pieces are
preserved, as in Python. -/
def splitOnChar (sep : Char) : List Char → List (List Char)
  | [] => [[]]
  | c :: cs =>
    if c = sep then [] :: splitOnChar sep cs
    else
      match splitOnChar sep cs with
      | [] => [[c]]
      | h :: t => (c :: h) :: t

/-- Whether the first list is an initial segment of the second. -/
def charsStartWith : List Char → List Char → Bool
  | [], _ => true
  | _ :: _, [] => false
  | p :: ps, c :: cs => p = c && charsStartWith ps cs

/-- Python `pat in s` on character lists. -/
def charsContain (pat : List Char) : List Char → Bool
  | [] => pat.isEmpty
  | c :: cs => charsStartWith pat (c :: cs) || charsContain pat cs

/-- Python `sep.join(parts)`. -/
def joinWith (sep : String) : List String → String
  | [] => ""
  | [x] => x
  | x :: xs => x ++ sep ++ joinWith sep xs

/-- `domain.strip().lower()` as applied throughout `graph_bridge.py`. -/
def cleanDomain (d : String) : String := pyLower (pyStrip d)

/-- The seed-validation loop at the top of `GraphBridge.discover`: clean each
domain and keep its graph id when `vertexLabelToId` is nonnegative. -/
def validSeedIds (st : Store) (seedDomains : List String) : List Int :=
  (seedDomains.map cleanDomain).filterMap fun d =>
    let i := st.labelToId d
    if 0 ≤ i then some i else none

/-- The `valid_seeds` accumulator of the same loop: the cleaned domains that
were found in the store. -/
def validSeedDomains (st : Store) (seedDomains : List String) : List String :=
  (seedDomains.map cleanDomain).filter fun d => decide (0 ≤ st.labelToId d)

/-- `neighbor_counts.get(k, 0)`: first-match lookup in the insertion-ordered
association list that models the Python dict. -/
def getCount : List (Int × Nat) → Int → Nat
  | [], _ => 0
  | (k2, v) :: rest, k => if k2 = k then v else getCount rest k

/-- `neighbor_counts[k] = neighbor_counts.get(k, 0) + 1` on the Python dict:
bump an existing entry in place (keeping its insertion position), or append a
fresh entry with count 1. -/
def bumpCount : List (Int × Nat) → Int → List (Int × Nat)
  | [], k => [(k, 1)]
  | (k2, v) :: rest, k =>
    if k2 = k then (k2, v + 1) :: rest else (k2, v) :: bumpCount rest k

/-- One neighbor of one seed in `GraphBridge.discover`: a neighbor that is
itself a seed id is skipped, any other occurrence bumps its count. -/
def countStep (seedIds : List Int) (m : List (Int × Nat)) (n : Int) :
    List (Int × Nat) :=
  if n ∈ seedIds then m else bumpCount m n

/-- The direction branch inside the seed loop of `GraphBridge.discover`:
`predecessors` for `"backlinks"`, `successors` otherwise. -/
def storeNeighbors (st : Store) (direction : String) : Int → List Int :=
  if direction = "backlinks" then st.preds else st.succs

/-- The counting loop of `GraphBridge.discover`: for each seed in order, fold
its whole neighbor list into the insertion-ordered count dict. -/
def countNeighbors (st : Store) (direction : String) (seedIds : List Int) :
    List (Int × Nat) :=
  seedIds.foldl
    (fun m sid => (storeNeighbors st direction sid).foldl (countStep seedIds) m) []

/-- The result-building loop of `GraphBridge.discover`: keep entries meeting
`min_connections`, look the label up, and drop labels that are missing
(`None`) or empty (falsy under `if domain:`). -/
def buildRows (st : Store) (minConnections : Nat) (counts : List (Int × Nat)) :
    List Row :=
  counts.filterMap fun p =>
    if minConnections ≤ p.2 then
      match st.idToLabel p.1 with
      | some d => if d = "" then none else some ⟨d, p.2⟩
      | none => none
    else none

/-- Stable descending insertion by `connections`: the inserted row is placed
after every already-placed row whose count is at least as large. This is the
tie behaviour of Python's stable `list.sort(key=..., reverse=True)`. -/
def insertRowDesc (r : Row) : List Row → List Row
  | [] => [r]
  | x :: xs =>
    if x.connections < r.connections then r :: x :: xs else x :: insertRowDesc r xs

/-- `results.sort(key=lambda x: x["connections"], reverse=True)` as a stable
insertion sort processing the rows in their original order. -/
def sortRowsDesc (l : List Row) : List Row :=
  l.foldl (fun acc r => insertRowDesc r acc) []

/-- `GraphBridge.discover` over a loaded store: validate seeds, aggregate
neighbor counts, filter, and sort descending by connections. -/
def discover (st : Store) (seedDomains : List String) (minConnections : Nat)
    (direction : String) : List Row :=
  let seedIds := validSeedIds st seedDomains
  if seedIds = [] then []
  else sortRowsDesc (buildRows st minConnections (countNeighbors st direction seedIds))

/-- `GraphBridge.domains_to_ids`: lowercase each domain, keep nonnegative ids. -/
def domainsToIds (st : Store) (domains : List String) : List Int :=
  domains.filterMap fun d =>
    let i := st.labelToId (pyLower d)
    if 0 ≤ i then some i else none

/-- The shared body of `GraphBridge.shared_predecessors` and
`GraphBridge.shared_successors` once `min_shared` is given: convert domains to
ids, invoke the server-side filter with `maxShared = len(ids)`, and translate
the result ids back to labels, dropping missing (`None`) labels. -/
def sharedNeighborsCall (f : List Int → Nat → Nat → List Int) (st : Store)
    (domains : List String) (minShared : Nat) : List String :=
  let ids := domainsToIds st domains
  if ids = [] then []
  else (f ids minShared ids.length).filterMap st.idToLabel

/-- `GraphBridge.shared_predecessors` with an explicit `min_shared`. -/
def sharedPredecessorsCall (st : Store) (domains : List String) (minShared : Nat) :
    List String :=
  sharedNeighborsCall st.sharedPreds st domains minShared

/-- `GraphBridge.shared_successors` with an explicit `min_shared`. -/
def sharedSuccessorsCall (st : Store) (domains : List String) (minShared : Nat) :
    List String :=
  sharedNeighborsCall st.sharedSuccs st domains minShared

/-- The direction branch of `GraphBridge.discover_fast`. -/
def storeShared (st : Store) (direction : String) :
    List Int → Nat → Nat → List Int :=
  if direction = "backlinks" then st.sharedPreds else st.sharedSuccs

/-- `GraphBridge.discover_fast` over a loaded store: validate seeds, run the
server-side filter, and drop results that are themselves seeds. -/
def discoverFast (st : Store) (seedDomains : List String) (minConnections : Nat)
    (direction : String) : List String :=
  let validSeeds := validSeedDomains st seedDomains
  if validSeeds = [] then []
  else
    let results :=
      if direction = "backlinks" then sharedPredecessorsCall st validSeeds minConnections
      else sharedSuccessorsCall st validSeeds minConnections
    results.filter fun d => decide (d ∉ validSeeds)

/-- `GraphBridge.validate_seeds` over a loaded store: partition the cleaned
seeds into those present and those absent, preserving input order. -/
def validateSeeds (st : Store) (seedDomains : List String) :
    List String × List String :=
  ((seedDomains.map cleanDomain).filter fun d => decide (0 ≤ st.labelToId d),
   (seedDomains.map cleanDomain).filter fun d => decide (st.labelToId d < 0))

/-- A `GraphBridge`: the store is present only after `load_graph()`. -/
structure GraphBridge where
  graph : Option Store

/-- The message of the `RuntimeError` raised by `GraphBridge._ensure_loaded`. -/
def notLoadedMsg : String := "Graph not loaded. Call load_graph() first."

/-- `GraphBridge.discover` including `_ensure_loaded`: an exception becomes an
explicit `Except.error`. -/
def GraphBridge.discoverE (b : GraphBridge) (seedDomains : List String)
    (minConnections : Nat) (direction : String) : Except String (List Row) :=
  match b.graph with
  | none => Except.error notLoadedMsg
  | some st => Except.ok (discover st seedDomains minConnections direction)

/-- `GraphBridge.discover_fast` including `_ensure_loaded`. -/
def GraphBridge.discoverFastE (b : GraphBridge) (seedDomains : List String)
    (minConnections : Nat) (direction : String) : Except String (List String) :=
  match b.graph with
  | none => Except.error notLoadedMsg
  | some st => Except.ok (discoverFast st seedDomains minConnections direction)

/-- `GraphBridge.validate_seeds` including `_ensure_loaded`. -/
def GraphBridge.validateSeedsE (b : GraphBridge) (seedDomains : List String) :
    Except String (List String × List String) :=
  match b.graph with
  | none => Except.error notLoadedMsg
  | some st => Except.ok (validateSeeds st seedDomains)

/-- `GraphBridge.discover_backlinks`, a thin wrapper over `discover`. -/
def GraphBridge.discoverBacklinksE (b : GraphBridge) (seedDomains : List String)
    (minConnections : Nat) : Except String (List Row) :=
  b.discoverE seedDomains minConnections "backlinks"

/-- `GraphBridge.discover_outlinks`, a thin wrapper over `discover`. -/
def GraphBridge.discoverOutlinksE (b : GraphBridge) (seedDomains : List String)
    (minConnections : Nat) : Except String (List Row) :=
  b.discoverE seedDomains minConnections "outlinks"

/-- The seed parser of `app.py::discover_domains`:
`[s.strip().lower() for s in seeds_text.strip().split(chr(10)) if s.strip()]`. -/
def parseSeeds (text : String) : List String :=
  ((((splitOnChar '\n' (pyStrip text).data).map fun cs =>
    pyStrip (String.mk cs)).filter fun s => decide (s ≠ "")).map pyLower)

/-- The over-cap error message of `discover_domains`. -/
def capErrMsg (n : Nat) : String :=
  "Error: Maximum 10000 domains allowed (you entered " ++ toString n ++ ")"

/-- `app.py::discover_domains` after seed parsing. Returns the result rows and
the status string. Exceptions raised below are caught and rendered as
an error-string result. Thousands separators in the status counts are not
modelled. -/
def discoverDomainsCore (b : GraphBridge) (minConnections : Nat)
    (direction : String) (seeds : List String) : List Row × String :=
  if seeds = [] then ([], "Error: Please enter at least one domain")
  else if 10000 < seeds.length then ([], capErrMsg seeds.length)
  else
    match b.validateSeedsE seeds with
    | Except.error e => ([], "Error: " ++ e)
    | Except.ok (found, notFound) =>
      if found = [] then
        ([], "Error: None of the " ++ toString seeds.length ++
             " domains were found in the webgraph")
      else
        let statusParts :=
          ["Found " ++ toString found.length ++ "/" ++ toString seeds.length ++
           " seeds in graph"]
        let statusParts := statusParts ++
          (if notFound ≠ [] ∧ notFound.length ≤ 5 then
            ["Not found: " ++ joinWith ", " notFound]
          else if notFound ≠ [] then
            ["Not found: " ++ toString notFound.length ++ " domains"]
          else [])
        let directionVal :=
          if charsContain "backlinks".data (pyLower direction).data then
            "backlinks"
          else "outlinks"
        match b.discoverE found minConnections directionVal with
        | Except.error e => ([], "Error: " ++ e)
        | Except.ok results =>
          if results = [] then
            ([], joinWith " | "
              (statusParts ++ ["No domains found matching criteria"]))
          else
            (results, joinWith " | "
              (statusParts ++ ["Found " ++ toString results.length ++
                " domains with >= " ++ toString minConnections ++ " connections"]))

/-- `app.py::discover_domains`: parse the input text, then run the core. -/
def discoverDomains (b : GraphBridge) (minConnections : Nat) (direction : String)
    (text : String) : List Row × String :=
  discoverDomainsCore b minConnections direction (parseSeeds text)

/-! `webgraph_discovery.py`: the legacy validator that scans the gzipped
vertices file. The file is modelled as the list of its lines. -/

/-- Reversed-domain notation back to normal notation:
`'.'.join(reversed(reversed_domain.split('.')))`. -/
def unreverseDomain (rd : String) : String :=
  joinWith "." ((splitOnChar '.' rd.data).map fun cs => String.mk cs).reverse

/-- One line of `WebgraphDiscovery._load_domain_set`: strip, split on a tab,
and when at least two fields exist, insert the unreversed second field into
the (ordered) domain set. -/
def loadLine (acc : List String) (line : String) : List String :=
  match (splitOnChar '\t' (pyStrip line).data).map (fun cs => String.mk cs) with
  | _ :: rd :: _ =>
    let d := unreverseDomain rd
    if d ∈ acc then acc else acc ++ [d]
  | _ => acc

/-- `WebgraphDiscovery._load_domain_set`, instrumented with a scan counter:
the loop consumes every line of the vertices file; the counter records how
many dictionary entries were scanned. -/
def loadDomainSetScan (vertices : List String) : List String × Nat :=
  vertices.foldl (fun p line => (loadLine p.1 line, p.2 + 1)) ([], 0)

/-- `WebgraphDiscovery.validate_seeds` on a cold cache, instrumented with the
number of vertex-dictionary entries scanned by `_load_domain_set`. -/
def validateSeedsScan (vertices : List String) (seedDomains : List String) :
    (List String × List String) × Nat :=
  let p := loadDomainSetScan vertices
  (((seedDomains.map cleanDomain).filter fun d => decide (d ∈ p.1),
    (seedDomains.map cleanDomain).filter fun d => decide (d ∉ p.1)), p.2)

/-! `discovery_network_vis.py`: Cytoscape elements, the discover callback with
its large-result gate, the confirm callback, and node deletion. -/

/-- The `data` dict of a Cytoscape node element. Seed nodes carry no
`connections` key, hence the `Option`. -/
structure NodeData where
  id : String
  label : String
  typ : String
  hop : Nat
  connections : Option Nat
deriving DecidableEq, Repr

/-- A Cytoscape element: a node, or an edge (distinguished in the Python code
by the presence of a `source` key in `data`). -/
inductive Elem where
  | node (data : NodeData)
  | edge (source target : String)
deriving DecidableEq, Repr

/-- The `existing_ids` set comprehension: ids of the node elements. -/
def nodeIds (elements : List Elem) : List String :=
  elements.filterMap fun e =>
    match e with
    | Elem.node d => some d.id
    | Elem.edge _ _ => none

/-- The payload stored in the `pending-elements` store while a large discovery
awaits confirmation. -/
structure PendingMerge where
  nodes : List NodeData
  edges : List (String × String)
deriving DecidableEq, Repr

/-- `NODE_WARNING_THRESHOLD` in `discovery_network_vis.py`. -/
def NODE_WARNING_THRESHOLD : Nat := 150

/-- `context_menu_discover` after `discover_neighbors` has produced
(`new_nodes`, `new_edges`): deduplicate the new nodes against the existing
node ids; when strictly more than the threshold remain, stage a
`PendingMerge` and leave the elements unchanged, otherwise extend the
elements immediately. Returns (elements, pending store, dialog displayed). -/
def contextMenuDiscover (newNodes : List NodeData)
    (newEdges : List (String × String)) (current : List Elem) :
    List Elem × Option PendingMerge × Bool :=
  let existingIds := nodeIds current
  let uniqueNodes := newNodes.filter fun n => decide (n.id ∉ existingIds)
  if NODE_WARNING_THRESHOLD < uniqueNodes.length then
    (current, some ⟨uniqueNodes, newEdges⟩, true)
  else
    (current ++ uniqueNodes.map Elem.node ++
       newEdges.map (fun p => Elem.edge p.1 p.2), none, false)

/-- The node loop of `confirm_large_discovery`: append each pending node whose
id is not yet present, adding appended ids to the seen set as it goes. -/
def appendPendingNodes (existingIds : List String) : List NodeData → List Elem
  | [] => []
  | n :: rest =>
    if n.id ∈ existingIds then appendPendingNodes existingIds rest
    else Elem.node n :: appendPendingNodes (n.id :: existingIds) rest

/-- `confirm_large_discovery`: merge the staged nodes, deduplicated against
the then-current node ids, then append the staged edges. -/
def confirmLargeDiscovery (pending : PendingMerge) (current : List Elem) :
    List Elem :=
  current ++ appendPendingNodes (nodeIds current) pending.nodes ++
    pending.edges.map fun p => Elem.edge p.1 p.2

/-- `delete_selected_nodes`: one filter pass keeping non-selected nodes and
edges not incident to any selected id. -/
def deleteSelectedNodes (selectedIds : List String) (current : List Elem) :
    List Elem :=
  current.filter fun e =>
    match e with
    | Elem.node d => decide (d.id ∉ selectedIds)
    | Elem.edge s t => decide (s ∉ selectedIds) && decide (t ∉ selectedIds)

/-- A `DiscoveryResult` as consumed by `GraphExplorer._build_elements`:
result rows and edges. -/
structure NResult where
  nodes : List Row
  edges : List (String × String)

/-- `GraphExplorer`: the webgraph discovery function and the `hop_counter`. -/
structure GraphExplorer where
  webgraphDiscover : List String → Nat → String → NResult
  hopCounter : Nat

/-- `GraphExplorer._build_elements`: build Cytoscape nodes and edges from a
discovery result (nothing is built when the result has no nodes), and
increment `hop_counter` unconditionally. -/
def buildElements (ex : GraphExplorer) (result : NResult) :
    List NodeData × List (String × String) × GraphExplorer :=
  let nodes :=
    if result.nodes = [] then []
    else result.nodes.map fun r =>
      { id := r.domain, label := r.domain, typ := "discovered",
        hop := ex.hopCounter + 1, connections := some r.connections }
  let edges := if result.nodes = [] then [] else result.edges
  (nodes, edges, { ex with hopCounter := ex.hopCounter + 1 })

/-- `GraphExplorer.discover_neighbors`: query the webgraph, then build
elements. -/
def discoverNeighbors (ex : GraphExplorer) (seedDomains : List String)
    (minConnections : Nat) (direction : String) :
    List NodeData × List (String × String) × GraphExplorer :=
  buildElements ex (ex.webgraphDiscover seedDomains minConnections direction)

/-- The whole `context_menu_discover` callback, explorer state included:
discovery (and hence the hop increment) happens before the staging branch. -/
def contextMenuDiscoverFull (ex : GraphExplorer) (selected : List String)
    (direction : String) (minConnections : Nat) (current : List Elem) :
    (List Elem × Option PendingMerge × Bool) × GraphExplorer :=
  let r := discoverNeighbors ex selected minConnections direction
  (contextMenuDiscover r.1 r.2.1 current, r.2.2)

/-! `examples/link_spam.py`: the set-intersection analyzer. -/

/-- A discovery result as consumed by `link_spam.build_network`: the result
node domains and the (backlinker, seed) edges. -/
structure DiscoveryOutput where
  nodes : List String
  edges : List (String × String)

/-- `casino_backlinkers & misinfo_backlinkers`: the shared backlinkers
(set-intersection semantics, membership in both node lists). -/
def sharedBacklinkers (aDisc bDisc : DiscoveryOutput) : List String :=
  aDisc.nodes.filter fun d => decide (d ∈ bDisc.nodes)

/-- The NetworkX `DiGraph` as built by `build_network`: node ids and directed
edges (attribute values play no role in the claims). -/
structure SpamGraph where
  nodeIds : List String
  edges : List (String × String)

/-- `G.add_node`: a no-op when the node already exists. -/
def SpamGraph.addNode (g : SpamGraph) (v : String) : SpamGraph :=
  if v ∈ g.nodeIds then g else { g with nodeIds := g.nodeIds ++ [v] }

/-- `G.add_edge` on a `DiGraph`: missing endpoints are added as nodes and an
already-present edge is not duplicated. -/
def SpamGraph.addEdge (g : SpamGraph) (s t : String) : SpamGraph :=
  let g1 := (g.addNode s).addNode t
  if (s, t) ∈ g1.edges then g1 else { g1 with edges := g1.edges ++ [(s, t)] }

/-- The edges of a discovery result whose source is a shared backlinker: the
flattened content of the `casino_edges` / `misinfo_edges` maps. -/
def sharedEdges (edges : List (String × String)) (shared : List String) :
    List (String × String) :=
  edges.filter fun p => decide (p.1 ∈ shared)

/-- `linked_casinos` / `linked_misinfo`: seeds that some shared backlinker
links to. -/
def linkedSeeds (edges : List (String × String)) (shared : List String) :
    List String :=
  (sharedEdges edges shared).map Prod.snd

/-- `link_spam.build_network` downstream of the two discovery runs: intersect
the backlinker sets, keep only seeds linked by a shared backlinker, add the
shared backlinkers, and add the edges from shared backlinkers to seeds.
The Python iteration order over sets is unspecified; lists stand in for it,
and all claims about the result are membership statements. -/
def buildNetwork (aDisc bDisc : DiscoveryOutput) : SpamGraph :=
  let shared := sharedBacklinkers aDisc bDisc
  let linkedA := linkedSeeds aDisc.edges shared
  let linkedB := linkedSeeds bDisc.edges shared
  let g : SpamGraph := ⟨[], []⟩
  let g := linkedA.foldl (fun g v => g.addNode v) g
  let g := linkedB.foldl (fun g v => g.addNode v) g
  let g := shared.foldl (fun g v => g.addNode v) g
  let g := (sharedEdges aDisc.edges shared).foldl (fun g p => g.addEdge p.1 p.2) g
  (sharedEdges bDisc.edges shared).foldl (fun g p => g.addEdge p.1 p.2) g

/-! Auxiliary quantities and the contract of the server-side filter. -/

/-- The number of distinct seeds among `ids` whose neighbor list contains
`v`. -/
def seedLinkCount (nbrs : Int → List Int) (ids : List Int) (v : Int) : Nat :=
  (ids.dedup.filter fun i => decide (v ∈ nbrs i)).length

/-- Modelled from the spec: the contract of the Graph Store's server-side
`sharedPredecessors(ids, minShared, maxShared)` /
`sharedSuccessors(ids, minShared, maxShared)` filter, whose implementation
(cc-webgraph) is not part of this repository: the returned vertices are
exactly those adjacent to at least `minShared` and at most `maxShared`
distinct input seeds. -/
def SharedContract (shared : List Int → Nat → Nat → List Int)
    (nbrs : Int → List Int) (ids : List Int) (minShared maxShared : Nat) : Prop :=
  ∀ v, v ∈ shared ids minShared maxShared ↔
    minShared ≤ seedLinkCount nbrs ids v ∧ seedLinkCount nbrs ids v ≤ maxShared

/-- The raw (seed, neighbor) incidence count of the aggregation in
`GraphBridge.discover`: the total number of occurrences of `n` across the
neighbor lists of all seeds, counting duplicate occurrences separately. -/
def rawIncidence (st : Store) (direction : String) (seedIds : List Int)
    (n : Int) : Nat :=
  (seedIds.map fun i => (storeNeighbors st direction i).count n).sum

/-! Concrete instances used by individual claims. -/

/-- A store realizing the spec's own C2 scenario: the single seed `cnn.com`
has predecessor records `[a.com, b.com, a.com]` — `a.com` twice. -/
def stDupNeighbor : Store where
  labelToId d := if d = "cnn.com" then 0 else -1
  idToLabel i :=
    if i = 0 then some "cnn.com"
    else if i = 1 then some "a.com"
    else if i = 2 then some "b.com"
    else none
  preds i := if i = 0 then [1, 2, 1] else []
  succs _ := []
  sharedPreds _ _ _ := []
  sharedSuccs _ _ _ := []

/-- A store where the single seed's two neighbors (equal counts) are
encountered in anti-lexical order: predecessors `[b.com, a.com]`. -/
def stTieOrder : Store where
  labelToId d := if d = "s.com" then 0 else -1
  idToLabel i :=
    if i = 0 then some "s.com"
    else if i = 1 then some "a.com"
    else if i = 2 then some "b.com"
    else none
  preds i := if i = 0 then [2, 1] else []
  succs _ := []
  sharedPreds _ _ _ := []
  sharedSuccs _ _ _ := []

/-- A store with two seeds `a.com`, `b.com` sharing the single predecessor
`x.com` (id 5), whose server-side filter returns exactly `[5]`. -/
def stSharedPair : Store where
  labelToId d :=
    if d = "a.com" then 0 else if d = "b.com" then 1
    else if d = "x.com" then 5 else -1
  idToLabel i :=
    if i = 0 then some "a.com"
    else if i = 1 then some "b.com"
    else if i = 5 then some "x.com"
    else none
  preds i := if i = 0 then [5] else if i = 1 then [5] else []
  succs _ := []
  sharedPreds _ _ _ := [5]
  sharedSuccs _ _ _ := []

/-- A store with a single seed `s.com` whose predecessor list holds the
neighbor `x.com` (id 5) twice — the spec's duplicate-incident-record
scenario. Its server-side filter returns the empty list, which satisfies the
distinct-seed-counting contract at `minShared = 2` over one seed. -/
def stDupShared : Store where
  labelToId d := if d = "s.com" then 0 else if d = "x.com" then 5 else -1
  idToLabel i :=
    if i = 0 then some "s.com" else if i = 5 then some "x.com" else none
  preds i := if i = 0 then [5, 5] else []
  succs _ := []
  sharedPreds _ _ _ := []
  sharedSuccs _ _ _ := []

/-- A store containing nothing, for exercising code paths that must not
depend on the store. -/
def stVoid : Store where
  labelToId _ := -1
  idToLabel _ := none
  preds _ := []
  succs _ := []
  sharedPreds _ _ _ := []
  sharedSuccs _ _ _ := []

/-- An explorer whose webgraph discovery returns an empty result. -/
def exEmptyResult : GraphExplorer where
  webgraphDiscover _ _ _ := ⟨[], []⟩
  hopCounter := 0

/-- An explorer whose webgraph discovery returns 151 distinct result rows
(strictly above the large-result threshold). -/
def exLargeResult : GraphExplorer where
  webgraphDiscover _ _ _ := ⟨(List.range 151).map fun k => ⟨toString k, 1⟩, []⟩
  hopCounter := 0

/-- A three-entry vertices file whose first entry is the (reversed) domain
`a`; entries are `index TAB reversed-domain`. -/
def demoVertices : List String := ["0\ta", "1\tb", "2\tc"]

/-- A sample discovered node element. -/
def sampleNode : NodeData :=
  { id := "w.com", label := "w.com", typ := "discovered", hop := 1,
    connections := some 1 }

/-- A small well-formed element list: two nodes and an edge between them. -/
def demoCurrent : List Elem :=
  [Elem.node ⟨"a", "a", "seed", 0, none⟩,
   Elem.node ⟨"b", "b", "seed", 0, none⟩,
   Elem.edge "a" "b"]

/-- Invariant of the counting loop of `GraphBridge.discover`: the dict has
distinct keys, and an entry `(n, c)` is present exactly when `n` is not a
seed id, has occurred at least once so far, and `c` is its number of
occurrences so far. -/
def CountInv (seedIds : List Int) (m : List (Int × Nat)) (occ : Int → Nat) :
    Prop :=
  (m.map Prod.fst).Nodup ∧
    ∀ n c, (n, c) ∈ m ↔ (n ∉ seedIds ∧ 0 < occ n ∧ c = occ n)

/-! ## Lemmas: the association list modelling the Python dict -/

theorem getCount_eq_of_mem {m : List (Int × Nat)} {n : Int} {c : Nat}
    (hnd : (m.map Prod.fst).Nodup) (h : (n, c) ∈ m) : getCount m n = c := by
  induction m with
  | nil => cases h
  | cons p rest ih =>
    obtain ⟨k2, v⟩ := p
    simp only [List.map_cons, List.nodup_cons] at hnd
    simp only [List.mem_cons, Prod.mk.injEq] at h
    rcases h with ⟨rfl, rfl⟩ | h
    · simp [getCount]
    · have hne : k2 ≠ n := by
        intro heq
        apply hnd.1
        rw [heq]
        exact List.mem_map_of_mem Prod.fst h
      simp only [getCount, if_neg hne]
      exact ih hnd.2 h

theorem getCount_eq_zero {m : List (Int × Nat)} {n : Int}
    (h : n ∉ m.map Prod.fst) : getCount m n = 0 := by
  induction m with
  | nil => rfl
  | cons p rest ih =>
    obtain ⟨k2, v⟩ := p
    simp only [List.map_cons, List.mem_cons, not_or] at h
    have hne : k2 ≠ n := fun heq => h.1 heq.symm
    simp only [getCount, if_neg hne]
    exact ih h.2

theorem keys_bumpCount (m : List (Int × Nat)) (k : Int) :
    (bumpCount m k).map Prod.fst =
      if k ∈ m.map Prod.fst then m.map Prod.fst else m.map Prod.fst ++ [k] := by
  induction m with
  | nil => simp [bumpCount]
  | cons p rest ih =>
    obtain ⟨k2, v⟩ := p
    by_cases hk : k2 = k
    · subst hk
      simp [bumpCount]
    · simp only [bumpCount, if_neg hk, List.map_cons, List.mem_cons]
      have : ¬ k = k2 := fun h => hk h.symm
      rw [ih]
      by_cases hmem : k ∈ rest.map Prod.fst <;> simp [hmem, this]

theorem keysNodup_bumpCount {m : List (Int × Nat)} {k : Int}
    (hnd : (m.map Prod.fst).Nodup) : ((bumpCount m k).map Prod.fst).Nodup := by
  rw [keys_bumpCount]
  by_cases hmem : k ∈ m.map Prod.fst
  · simpa [hmem]
  · simp only [hmem, if_false]
    exact List.Nodup.append hnd (List.nodup_singleton k)
      (by simpa using fun h => hmem h)

theorem mem_bumpCount_ne {m : List (Int × Nat)} {n k : Int} {c : Nat}
    (hne : n ≠ k) : (n, c) ∈ bumpCount m k ↔ (n, c) ∈ m := by
  induction m with
  | nil => simp [bumpCount, hne]
  | cons p rest ih =>
    obtain ⟨k2, v⟩ := p
    by_cases hk : k2 = k
    · subst hk
      simp [bumpCount, hne]
    · simp [bumpCount, hk, ih]

theorem mem_bumpCount_self {m : List (Int × Nat)} {k : Int} {c : Nat}
    (hnd : (m.map Prod.fst).Nodup) :
    ((k, c) ∈ bumpCount m k ↔ c = getCount m k + 1) := by
  induction m with
  | nil => simp [bumpCount, getCount, eq_comm]
  | cons p rest ih =>
    obtain ⟨k2, v⟩ := p
    simp only [List.map_cons, List.nodup_cons] at hnd
    by_cases hk : k2 = k
    · subst hk
      have hnotin : ∀ c2 : Nat, (k2, c2) ∉ rest := by
        intro c2 hmem
        exact hnd.1 (List.mem_map_of_mem Prod.fst hmem)
      simp [bumpCount, getCount, hnotin]
    · have hkn : k ≠ k2 := fun h => hk h.symm
      simp [bumpCount, getCount, hk, hkn, ih hnd.2]

/-! ## Lemmas: the counting loop of `GraphBridge.discover` -/

theorem countInv_congr {S : List Int} {m : List (Int × Nat)}
    {occ occ2 : Int → Nat} (h : ∀ n, occ n = occ2 n)
    (hi : CountInv S m occ) : CountInv S m occ2 := by
  refine ⟨hi.1, fun n c => ?_⟩
  have := hi.2 n c
  rw [h n] at this
  exact this

theorem countInv_step {S : List Int} {m : List (Int × Nat)} {occ : Int → Nat}
    {x : Int} (hi : CountInv S m occ) :
    CountInv S (countStep S m x) (fun n => occ n + if n = x then 1 else 0) := by
  by_cases hx : x ∈ S
  · unfold countStep
    rw [if_pos hx]
    refine ⟨hi.1, fun n c => ?_⟩
    by_cases hnx : n = x
    · rw [hnx, hi.2 x c]
      simp [hx]
    · simpa [hnx] using hi.2 n c
  · unfold countStep
    rw [if_neg hx]
    refine ⟨keysNodup_bumpCount hi.1, fun n c => ?_⟩
    by_cases hnx : n = x
    · have hg : getCount m x = occ x := by
        by_cases hocc : 0 < occ x
        · exact getCount_eq_of_mem hi.1 ((hi.2 x (occ x)).mpr ⟨hx, hocc, rfl⟩)
        · have h0 : occ x = 0 := Nat.eq_zero_of_not_pos hocc
          have hnk : x ∉ m.map Prod.fst := by
            intro hmem
            obtain ⟨p, hp, hfst⟩ := List.mem_map.mp hmem
            obtain ⟨k2, v⟩ := p
            dsimp only at hfst
            subst hfst
            have := (hi.2 k2 v).mp hp
            omega
          rw [getCount_eq_zero hnk, h0]
      rw [hnx, mem_bumpCount_self hi.1, hg]
      simp [hx]
    · rw [mem_bumpCount_ne hnx]
      simpa [hnx] using hi.2 n c

theorem countInv_foldl {S : List Int} (L : List Int) :
    ∀ (m : List (Int × Nat)) (occ : Int → Nat), CountInv S m occ →
      CountInv S (L.foldl (countStep S) m) (fun n => occ n + L.count n) := by
  induction L with
  | nil =>
    intro m occ hi
    exact countInv_congr (fun n => by simp) hi
  | cons x L ih =>
    intro m occ hi
    have h2 := ih _ _ (countInv_step (x := x) hi)
    refine countInv_congr (fun n => ?_) h2
    dsimp only
    rcases eq_or_ne n x with hnx | hnx
    · rw [hnx, List.count_cons_self, if_pos rfl]
      omega
    · rw [List.count_cons_of_ne hnx, if_neg hnx]
      omega

theorem countInv_countNeighbors (st : Store) (direction : String)
    (S : List Int) :
    CountInv S (countNeighbors st direction S) (rawIncidence st direction S) := by
  suffices h : ∀ (S2 : List Int) (m : List (Int × Nat)) (occ : Int → Nat),
      CountInv S m occ →
      CountInv S
        (S2.foldl
          (fun m sid => (storeNeighbors st direction sid).foldl (countStep S) m) m)
        (fun n =>
          occ n + (S2.map fun i => (storeNeighbors st direction i).count n).sum) by
    have h0 : CountInv S [] (fun _ => 0) := ⟨List.nodup_nil, fun n c => by simp⟩
    exact countInv_congr (fun n => by simp [rawIncidence]) (h S [] (fun _ => 0) h0)
  intro S2
  induction S2 with
  | nil =>
    intro m occ hi
    exact countInv_congr (fun n => by simp) hi
  | cons sid S2 ih =>
    intro m occ hi
    have h2 := ih _ _ (countInv_foldl (storeNeighbors st direction sid) m occ hi)
    refine countInv_congr (fun n => ?_) h2
    simp only [List.map_cons, List.sum_cons]
    omega

/-- Membership characterization of the aggregation dict: an entry `(n, c)`
exists exactly when `n` is a non-seed neighbor occurring at least once, and
`c` is the raw (per-occurrence) incidence count. -/
theorem mem_countNeighbors (st : Store) (direction : String) (S : List Int)
    (n : Int) (c : Nat) :
    (n, c) ∈ countNeighbors st direction S ↔
      (n ∉ S ∧ 0 < rawIncidence st direction S n ∧
        c = rawIncidence st direction S n) :=
  (countInv_countNeighbors st direction S).2 n c

/-! ## Lemmas: the stable descending sort -/

theorem mem_insertRowDesc {a r : Row} {l : List Row} :
    a ∈ insertRowDesc r l ↔ a = r ∨ a ∈ l := by
  induction l with
  | nil => simp [insertRowDesc]
  | cons x xs ih =>
    by_cases h : x.connections < r.connections
    · simp [insertRowDesc, h]
    · simp only [insertRowDesc, if_neg h, List.mem_cons, ih]
      tauto

theorem mem_sortRowsDesc {a : Row} {l : List Row} :
    a ∈ sortRowsDesc l ↔ a ∈ l := by
  suffices h : ∀ (l acc : List Row) (a : Row),
      (a ∈ l.foldl (fun acc r => insertRowDesc r acc) acc ↔ a ∈ acc ∨ a ∈ l) by
    simpa [sortRowsDesc] using h l [] a
  intro l
  induction l with
  | nil =>
    intro acc a
    simp
  | cons x xs ih =>
    intro acc a
    simp only [List.foldl_cons, ih, mem_insertRowDesc, List.mem_cons]
    tauto

theorem pairwise_insertRowDesc {r : Row} {l : List Row}
    (h : l.Pairwise fun a b => b.connections ≤ a.connections) :
    (insertRowDesc r l).Pairwise fun a b => b.connections ≤ a.connections := by
  induction l with
  | nil => simp [insertRowDesc]
  | cons x xs ih =>
    rcases List.pairwise_cons.mp h with ⟨hx, hxs⟩
    by_cases hlt : x.connections < r.connections
    · rw [insertRowDesc, if_pos hlt]
      refine List.pairwise_cons.mpr ⟨?_, h⟩
      intro b hb
      rcases List.mem_cons.mp hb with rfl | hb
      · omega
      · have := hx b hb
        omega
    · rw [insertRowDesc, if_neg hlt]
      refine List.pairwise_cons.mpr ⟨?_, ih hxs⟩
      intro b hb
      rcases mem_insertRowDesc.mp hb with rfl | hb
      · omega
      · exact hx b hb

theorem filter_insertRowDesc (c : Nat) {r : Row} {l : List Row}
    (h : l.Pairwise fun a b => b.connections ≤ a.connections) :
    (insertRowDesc r l).filter (fun x => decide (x.connections = c)) =
      l.filter (fun x => decide (x.connections = c)) ++
        (if r.connections = c then [r] else []) := by
  induction l with
  | nil =>
    by_cases hc : r.connections = c <;> simp [insertRowDesc, hc]
  | cons x xs ih =>
    rcases List.pairwise_cons.mp h with ⟨hx, hxs⟩
    by_cases hlt : x.connections < r.connections
    · rw [insertRowDesc, if_pos hlt]
      by_cases hc : r.connections = c
      · have hnil : (x :: xs).filter (fun y => decide (y.connections = c)) = [] := by
          rw [List.filter_eq_nil_iff]
          intro a ha
          rcases List.mem_cons.mp ha with rfl | ha
          · simp
            omega
          · have := hx a ha
            simp
            omega
        simp [List.filter_cons, hc, hnil]
      · simp [List.filter_cons, hc]
    · rw [insertRowDesc, if_neg hlt]
      by_cases hxc : x.connections = c <;>
        simp [List.filter_cons, hxc, ih hxs]

theorem sortRowsDesc_pairwise (l : List Row) :
    (sortRowsDesc l).Pairwise fun a b => b.connections ≤ a.connections := by
  suffices h : ∀ (l acc : List Row),
      (acc.Pairwise fun a b => b.connections ≤ a.connections) →
      ((l.foldl (fun acc r => insertRowDesc r acc) acc).Pairwise
        fun a b => b.connections ≤ a.connections) by
    exact h l [] (by simp)
  intro l
  induction l with
  | nil =>
    intro acc h
    simpa using h
  | cons x xs ih =>
    intro acc h
    exact ih _ (pairwise_insertRowDesc h)

theorem sortRowsDesc_filter (c : Nat) (l : List Row) :
    (sortRowsDesc l).filter (fun x => decide (x.connections = c)) =
      l.filter (fun x => decide (x.connections = c)) := by
  suffices h : ∀ (l acc : List Row),
      (acc.Pairwise fun a b => b.connections ≤ a.connections) →
      (l.foldl (fun acc r => insertRowDesc r acc) acc).filter
          (fun x => decide (x.connections = c)) =
        acc.filter (fun x => decide (x.connections = c)) ++
          l.filter (fun x => decide (x.connections = c)) by
    simpa [sortRowsDesc] using h l [] (by simp)
  intro l
  induction l with
  | nil =>
    intro acc h
    simp
  | cons x xs ih =>
    intro acc h
    rw [List.foldl_cons, ih _ (pairwise_insertRowDesc h), filter_insertRowDesc c h]
    by_cases hxc : x.connections = c <;>
      simp [List.filter_cons, hxc, List.append_assoc]

/-! ## Lemmas: seed validation and the two discovery pipelines -/

theorem filterMap_eq_map_of {α β : Type} {l : List α} {f : α → Option β}
    {g : α → β} (h : ∀ a ∈ l, f a = some (g a)) : l.filterMap f = l.map g := by
  induction l with
  | nil => simp
  | cons x xs ih =>
    have hx := h x (List.mem_cons_self x xs)
    simp [List.filterMap_cons, hx,
      ih fun a ha => h a (List.mem_cons_of_mem _ ha)]

theorem validSeedIds_eq_map (st : Store) (seedDomains : List String) :
    validSeedIds st seedDomains =
      (validSeedDomains st seedDomains).map st.labelToId := by
  unfold validSeedIds validSeedDomains
  generalize seedDomains.map cleanDomain = l
  induction l with
  | nil => simp
  | cons d ds ih =>
    by_cases hd : 0 ≤ st.labelToId d <;>
      simp [List.filterMap_cons, List.filter_cons, hd, ih]

theorem validateSeeds_length (st : Store) (seedDomains : List String) :
    (validateSeeds st seedDomains).1.length +
      (validateSeeds st seedDomains).2.length = seedDomains.length := by
  simp only [validateSeeds]
  rw [← List.length_map seedDomains cleanDomain]
  generalize seedDomains.map cleanDomain = l
  induction l with
  | nil => simp
  | cons d ds ih =>
    by_cases hd : 0 ≤ st.labelToId d
    · have hq : ¬ st.labelToId d < 0 := Int.not_lt.mpr hd
      simp [List.filter_cons, hd, hq]
      omega
    · have hq : st.labelToId d < 0 := Int.not_le.mp hd
      simp [List.filter_cons, hd, hq]
      omega

theorem loadDomainSetScan_scanned (vertices : List String) :
    (loadDomainSetScan vertices).2 = vertices.length := by
  unfold loadDomainSetScan
  suffices h : ∀ (l acc : List String) (k : Nat),
      (l.foldl (fun p line => (loadLine p.1 line, p.2 + 1)) (acc, k)).2 =
        k + l.length by
    simpa using h vertices [] 0
  intro l
  induction l with
  | nil =>
    intro acc k
    simp
  | cons x xs ih =>
    intro acc k
    rw [List.foldl_cons, ih]
    simp [List.length_cons]
    omega

theorem exists_int_not_mem (L : List Int) : ∃ v : Int, v ∉ L := by
  obtain ⟨v, hv⟩ := Infinite.exists_not_mem_finset L.toFinset
  exact ⟨v, fun h => hv (List.mem_toFinset.mpr h)⟩

theorem count_nodup {L : List Int} {n : Int} (h : L.Nodup) :
    L.count n = if n ∈ L then 1 else 0 := by
  by_cases hm : n ∈ L
  · rw [if_pos hm]
    have h1 : L.count n ≤ 1 := List.nodup_iff_count_le_one.mp h n
    have h2 : 0 < L.count n := List.count_pos_iff.mpr hm
    omega
  · rw [if_neg hm, List.count_eq_zero.mpr hm]

theorem rawIncidence_eq_filterLength (st : Store) (direction : String)
    {S : List Int} (hnbr : ∀ i, (storeNeighbors st direction i).Nodup)
    (n : Int) :
    rawIncidence st direction S n =
      (S.filter fun i => decide (n ∈ storeNeighbors st direction i)).length := by
  induction S with
  | nil => simp [rawIncidence]
  | cons i S ih =>
    simp only [rawIncidence, List.map_cons, List.sum_cons] at *
    rw [count_nodup (hnbr i)]
    by_cases hm : n ∈ storeNeighbors st direction i
    · simp [List.filter_cons, hm]
      omega
    · simp [List.filter_cons, hm]
      omega

theorem seedLinkCount_eq_rawIncidence (st : Store) (direction : String)
    {S : List Int} (hS : S.Nodup)
    (hnbr : ∀ i, (storeNeighbors st direction i).Nodup) (n : Int) :
    seedLinkCount (storeNeighbors st direction) S n =
      rawIncidence st direction S n := by
  rw [seedLinkCount, hS.dedup, rawIncidence_eq_filterLength st direction hnbr]

theorem seedLinkCount_le (nbrs : Int → List Int) (ids : List Int) (v : Int) :
    seedLinkCount nbrs ids v ≤ ids.length :=
  le_trans (List.length_filter_le _ _)
    (List.Sublist.length_le (List.dedup_sublist ids))

theorem mem_buildRows {st : Store} {minConnections : Nat}
    {counts : List (Int × Nat)} {r : Row} :
    r ∈ buildRows st minConnections counts ↔
      ∃ n, (n, r.connections) ∈ counts ∧ minConnections ≤ r.connections ∧
        st.idToLabel n = some r.domain ∧ r.domain ≠ "" := by
  unfold buildRows
  rw [List.mem_filterMap]
  constructor
  · rintro ⟨⟨n, c⟩, hmem, hf⟩
    dsimp only at hf
    by_cases hmc : minConnections ≤ c
    swap
    · rw [if_neg hmc] at hf
      cases hf
    rw [if_pos hmc] at hf
    cases hl : st.idToLabel n with
    | none =>
      rw [hl] at hf
      cases hf
    | some d =>
      rw [hl] at hf
      dsimp only at hf
      by_cases hd : d = ""
      · rw [if_pos hd] at hf
        cases hf
      · rw [if_neg hd] at hf
        obtain rfl := Option.some.inj hf
        exact ⟨n, hmem, hmc, hl, hd⟩
  · rintro ⟨n, hmem, hmc, hl, hd⟩
    refine ⟨(n, r.connections), hmem, ?_⟩
    dsimp only
    rw [if_pos hmc, hl]
    dsimp only
    rw [if_neg hd]

/-! ## Lemmas: the two discovery pipelines, membership characterizations -/

theorem mem_discover_domain {st : Store} {seedDomains : List String}
    {minConnections : Nat} {direction : String} {d : String} :
    d ∈ (discover st seedDomains minConnections direction).map Row.domain ↔
      (validSeedIds st seedDomains ≠ [] ∧
        ∃ n, n ∉ validSeedIds st seedDomains ∧
          minConnections ≤ rawIncidence st direction (validSeedIds st seedDomains) n ∧
          0 < rawIncidence st direction (validSeedIds st seedDomains) n ∧
          st.idToLabel n = some d ∧ d ≠ "") := by
  by_cases hS : validSeedIds st seedDomains = []
  · simp [discover, hS]
  · simp only [discover, if_neg hS]
    constructor
    · intro hd
      obtain ⟨r, hr, hrd⟩ := List.mem_map.mp hd
      obtain ⟨n, hmem, hmc, hl, hne⟩ := mem_buildRows.mp (mem_sortRowsDesc.mp hr)
      obtain ⟨hnS, hpos, hceq⟩ :=
        (mem_countNeighbors st direction (validSeedIds st seedDomains) n
          r.connections).mp hmem
      subst hrd
      rw [hceq] at hmc
      exact ⟨hS, n, hnS, hmc, hpos, hl, hne⟩
    · rintro ⟨_, n, hnS, hmc, hpos, hl, hne⟩
      refine List.mem_map.mpr
        ⟨⟨d, rawIncidence st direction (validSeedIds st seedDomains) n⟩,
          mem_sortRowsDesc.mpr (mem_buildRows.mpr
            ⟨n, (mem_countNeighbors st direction (validSeedIds st seedDomains) n
              _).mpr ⟨hnS, hpos, rfl⟩, hmc, hl, hne⟩), rfl⟩

theorem discoverFast_eq (st : Store) (seedDomains : List String)
    (minConnections : Nat) (direction : String) :
    discoverFast st seedDomains minConnections direction =
      if validSeedDomains st seedDomains = [] then []
      else
        (sharedNeighborsCall (storeShared st direction) st
          (validSeedDomains st seedDomains) minConnections).filter
            fun d => decide (d ∉ validSeedDomains st seedDomains) := by
  by_cases hD : validSeedDomains st seedDomains = []
  · simp [discoverFast, hD]
  · simp only [discoverFast, if_neg hD]
    by_cases h : direction = "backlinks" <;>
      simp [h, sharedPredecessorsCall, sharedSuccessorsCall, storeShared]

/-! ## Lemmas: Cytoscape elements and the visualizer callbacks -/

theorem nodeIds_cons_node (d : NodeData) (l : List Elem) :
    nodeIds (Elem.node d :: l) = d.id :: nodeIds l := by
  simp [nodeIds, List.filterMap_cons]

theorem nodeIds_cons_edge (s t : String) (l : List Elem) :
    nodeIds (Elem.edge s t :: l) = nodeIds l := by
  simp [nodeIds, List.filterMap_cons]

theorem mem_nodeIds {i : String} {elements : List Elem} :
    i ∈ nodeIds elements ↔ ∃ d : NodeData, Elem.node d ∈ elements ∧ d.id = i := by
  unfold nodeIds
  rw [List.mem_filterMap]
  constructor
  · rintro ⟨e, he, hf⟩
    cases e with
    | node d => exact ⟨d, he, Option.some.inj hf⟩
    | edge s t => cases hf
  · rintro ⟨d, hd, rfl⟩
    exact ⟨Elem.node d, hd, rfl⟩

theorem appendPendingNodes_spec (pendingNodes : List NodeData) :
    ∀ existingIds : List String,
      (∀ i, i ∈ nodeIds (appendPendingNodes existingIds pendingNodes) ↔
        (i ∉ existingIds ∧ i ∈ pendingNodes.map NodeData.id)) ∧
      (nodeIds (appendPendingNodes existingIds pendingNodes)).Nodup := by
  induction pendingNodes with
  | nil =>
    intro ex
    refine ⟨fun i => ?_, ?_⟩ <;> simp [appendPendingNodes, nodeIds]
  | cons n rest ih =>
    intro ex
    by_cases hn : n.id ∈ ex
    · simp only [appendPendingNodes, if_pos hn]
      refine ⟨fun i => ?_, (ih ex).2⟩
      rw [(ih ex).1 i, List.map_cons, List.mem_cons]
      constructor
      · rintro ⟨hex, hm⟩
        exact ⟨hex, Or.inr hm⟩
      · rintro ⟨hex, hm | hm⟩
        · rcases hm with rfl
          exact absurd hn hex
        · exact ⟨hex, hm⟩
    · simp only [appendPendingNodes, if_neg hn]
      have ihh := ih (n.id :: ex)
      rw [nodeIds_cons_node]
      constructor
      · intro i
        rw [List.mem_cons, ihh.1 i, List.map_cons]
        simp only [List.mem_cons, not_or]
        constructor
        · rintro (rfl | ⟨⟨hni, hex⟩, hm⟩)
          · exact ⟨hn, Or.inl rfl⟩
          · exact ⟨hex, Or.inr hm⟩
        · rintro ⟨hex, rfl | hm⟩
          · exact Or.inl rfl
          · by_cases hni : i = n.id
            · exact Or.inl hni
            · exact Or.inr ⟨⟨hni, hex⟩, hm⟩
      · rw [List.nodup_cons]
        refine ⟨?_, ihh.2⟩
        intro hmem
        exact ((ihh.1 n.id).mp hmem).1 (List.mem_cons_self _ _)

/-! ## Lemmas: the NetworkX graph of the link-spam analyzer -/

theorem mem_sharedBacklinkers {aDisc bDisc : DiscoveryOutput} {d : String} :
    d ∈ sharedBacklinkers aDisc bDisc ↔ d ∈ aDisc.nodes ∧ d ∈ bDisc.nodes := by
  simp [sharedBacklinkers]

theorem mem_sharedEdges {edges : List (String × String)} {shared : List String}
    {p : String × String} :
    p ∈ sharedEdges edges shared ↔ p ∈ edges ∧ p.1 ∈ shared := by
  simp [sharedEdges]

theorem mem_linkedSeeds {edges : List (String × String)} {shared : List String}
    {v : String} :
    v ∈ linkedSeeds edges shared ↔ ∃ p, p ∈ edges ∧ p.1 ∈ shared ∧ p.2 = v := by
  simp only [linkedSeeds, List.mem_map]
  constructor
  · rintro ⟨p, hp, rfl⟩
    obtain ⟨h1, h2⟩ := mem_sharedEdges.mp hp
    exact ⟨p, h1, h2, rfl⟩
  · rintro ⟨p, h1, h2, rfl⟩
    exact ⟨p, mem_sharedEdges.mpr ⟨h1, h2⟩, rfl⟩

theorem mem_addNode_nodeIds {g : SpamGraph} {v w : String} :
    v ∈ (g.addNode w).nodeIds ↔ v ∈ g.nodeIds ∨ v = w := by
  unfold SpamGraph.addNode
  by_cases h : w ∈ g.nodeIds
  · rw [if_pos h]
    constructor
    · exact Or.inl
    · rintro (hv | rfl)
      · exact hv
      · exact h
  · rw [if_neg h]
    simp

theorem addNode_edges (g : SpamGraph) (w : String) :
    (g.addNode w).edges = g.edges := by
  unfold SpamGraph.addNode
  by_cases h : w ∈ g.nodeIds <;> simp [h]

theorem mem_foldl_addNode {l : List String} {g : SpamGraph} {v : String} :
    v ∈ (l.foldl (fun g v => g.addNode v) g).nodeIds ↔
      v ∈ g.nodeIds ∨ v ∈ l := by
  induction l generalizing g with
  | nil => simp
  | cons x xs ih =>
    rw [List.foldl_cons, ih, mem_addNode_nodeIds, List.mem_cons]
    tauto

theorem foldl_addNode_edges (l : List String) (g : SpamGraph) :
    (l.foldl (fun g v => g.addNode v) g).edges = g.edges := by
  induction l generalizing g with
  | nil => rfl
  | cons x xs ih => rw [List.foldl_cons, ih, addNode_edges]

theorem addEdge_nodeIds (g : SpamGraph) (s t : String) :
    (g.addEdge s t).nodeIds = ((g.addNode s).addNode t).nodeIds := by
  simp only [SpamGraph.addEdge]
  by_cases h : (s, t) ∈ ((g.addNode s).addNode t).edges <;> simp [h]

theorem mem_addEdge_nodeIds {g : SpamGraph} {v s t : String} :
    v ∈ (g.addEdge s t).nodeIds ↔ v ∈ g.nodeIds ∨ v = s ∨ v = t := by
  rw [addEdge_nodeIds, mem_addNode_nodeIds, mem_addNode_nodeIds]
  tauto

theorem mem_foldl_addEdge_nodeIds {l : List (String × String)} {g : SpamGraph}
    {v : String} :
    v ∈ (l.foldl (fun g p => g.addEdge p.1 p.2) g).nodeIds ↔
      v ∈ g.nodeIds ∨ ∃ p ∈ l, v = p.1 ∨ v = p.2 := by
  induction l generalizing g with
  | nil => simp
  | cons x xs ih =>
    rw [List.foldl_cons, ih, mem_addEdge_nodeIds]
    constructor
    · rintro ((h | h | h) | ⟨p, hp, h⟩)
      · exact Or.inl h
      · exact Or.inr ⟨x, List.mem_cons_self _ _, Or.inl h⟩
      · exact Or.inr ⟨x, List.mem_cons_self _ _, Or.inr h⟩
      · exact Or.inr ⟨p, List.mem_cons_of_mem _ hp, h⟩
    · rintro (h | ⟨p, hp, h⟩)
      · exact Or.inl (Or.inl h)
      · rcases List.mem_cons.mp hp with rfl | hp
        · rcases h with h | h
          · exact Or.inl (Or.inr (Or.inl h))
          · exact Or.inl (Or.inr (Or.inr h))
        · exact Or.inr ⟨p, hp, h⟩

theorem mem_buildNetwork_nodeIds {aDisc bDisc : DiscoveryOutput} {v : String} :
    v ∈ (buildNetwork aDisc bDisc).nodeIds ↔
      (v ∈ linkedSeeds aDisc.edges (sharedBacklinkers aDisc bDisc) ∨
       v ∈ linkedSeeds bDisc.edges (sharedBacklinkers aDisc bDisc) ∨
       v ∈ sharedBacklinkers aDisc bDisc) := by
  simp only [buildNetwork, mem_foldl_addEdge_nodeIds, mem_foldl_addNode,
    List.not_mem_nil, false_or]
  constructor
  · rintro ((((h | h) | h) | ⟨p, hp, h⟩) | ⟨p, hp, h⟩)
    · exact Or.inl h
    · exact Or.inr (Or.inl h)
    · exact Or.inr (Or.inr h)
    · obtain ⟨hpe, hps⟩ := mem_sharedEdges.mp hp
      rcases h with rfl | rfl
      · exact Or.inr (Or.inr hps)
      · exact Or.inl (mem_linkedSeeds.mpr ⟨p, hpe, hps, rfl⟩)
    · obtain ⟨hpe, hps⟩ := mem_sharedEdges.mp hp
      rcases h with rfl | rfl
      · exact Or.inr (Or.inr hps)
      · exact Or.inr (Or.inl (mem_linkedSeeds.mpr ⟨p, hpe, hps, rfl⟩))
  · rintro (h | h | h)
    · exact Or.inl (Or.inl (Or.inl (Or.inl h)))
    · exact Or.inl (Or.inl (Or.inl (Or.inr h)))
    · exact Or.inl (Or.inl (Or.inr h))

theorem nodeIds_append (l1 l2 : List Elem) :
    nodeIds (l1 ++ l2) = nodeIds l1 ++ nodeIds l2 := by
  simp [nodeIds, List.filterMap_append]

theorem nodeIds_edgesMap (edges : List (String × String)) :
    nodeIds (edges.map fun p => Elem.edge p.1 p.2) = [] := by
  induction edges with
  | nil => rfl
  | cons e es ih => rw [List.map_cons, nodeIds_cons_edge, ih]

theorem labelToId_nonneg_of_mem {st : Store} {seedDomains : List String}
    {d : String} (hd : d ∈ validSeedDomains st seedDomains) :
    0 ≤ st.labelToId d := by
  unfold validSeedDomains at hd
  exact of_decide_eq_true (List.mem_filter.mp hd).2

/-! ## Claim theorems -/

/-- C1: an expansion producing exactly `NODE_WARNING_THRESHOLD` (150) new
non-duplicate nodes is merged into the graph immediately; one producing
strictly more leaves the elements unchanged and stages the unique nodes and
new edges as a pending merge with the confirm dialog displayed; on
confirmation the staged nodes are merged with deduplication against the
then-current node ids (the resulting node-id set is the union, and no
duplicate ids are introduced). -/
theorem claim1_threshold_gating (newNodes : List NodeData)
    (newEdges : List (String × String)) (current : List Elem) :
    (((newNodes.filter fun n => decide (n.id ∉ nodeIds current)).length =
        NODE_WARNING_THRESHOLD) →
      contextMenuDiscover newNodes newEdges current =
        (current ++
          (newNodes.filter fun n => decide (n.id ∉ nodeIds current)).map Elem.node ++
          newEdges.map (fun p => Elem.edge p.1 p.2), none, false)) ∧
    ((NODE_WARNING_THRESHOLD <
        (newNodes.filter fun n => decide (n.id ∉ nodeIds current)).length) →
      contextMenuDiscover newNodes newEdges current =
        (current,
          some ⟨newNodes.filter fun n => decide (n.id ∉ nodeIds current), newEdges⟩,
          true)) ∧
    (∀ (pending : PendingMerge) (current2 : List Elem),
      (confirmLargeDiscovery pending current2 =
        current2 ++ appendPendingNodes (nodeIds current2) pending.nodes ++
          pending.edges.map fun p => Elem.edge p.1 p.2) ∧
      (∀ i, i ∈ nodeIds (confirmLargeDiscovery pending current2) ↔
        (i ∈ nodeIds current2 ∨ i ∈ pending.nodes.map NodeData.id)) ∧
      ((nodeIds current2).Nodup →
        (nodeIds (confirmLargeDiscovery pending current2)).Nodup)) := by
  refine ⟨?_, ?_, ?_⟩
  · intro h
    have hlt : ¬ NODE_WARNING_THRESHOLD <
        (newNodes.filter fun n => decide (n.id ∉ nodeIds current)).length := by
      omega
    simp only [contextMenuDiscover, if_neg hlt]
  · intro h
    simp only [contextMenuDiscover, if_pos h]
  · intro pending current2
    refine ⟨rfl, ?_, ?_⟩
    · intro i
      simp only [confirmLargeDiscovery, nodeIds_append, nodeIds_edgesMap,
        List.append_nil, List.mem_append]
      rw [(appendPendingNodes_spec pending.nodes (nodeIds current2)).1 i]
      constructor
      · rintro (h | ⟨_, h⟩)
        · exact Or.inl h
        · exact Or.inr h
      · rintro (h | h)
        · exact Or.inl h
        · by_cases hc : i ∈ nodeIds current2
          · exact Or.inl hc
          · exact Or.inr ⟨hc, h⟩
    · intro hnd
      simp only [confirmLargeDiscovery, nodeIds_append, nodeIds_edgesMap,
        List.append_nil]
      refine List.Nodup.append hnd
        (appendPendingNodes_spec pending.nodes (nodeIds current2)).2 ?_
      intro a ha hb
      exact ((appendPendingNodes_spec pending.nodes (nodeIds current2)).1 a).mp
        hb |>.1 ha

/-- C1 witness: with 150 fresh nodes the merge is applied immediately; with
151 fresh nodes the elements are unchanged and a pending merge is staged; a
confirmed merge produces duplicate-free node ids. -/
theorem claim1_witness :
    (contextMenuDiscover (List.replicate 150 sampleNode) [] [] =
      ([] ++ ((List.replicate 150 sampleNode).filter fun n =>
          decide (n.id ∉ nodeIds [])).map Elem.node ++
        ([] : List (String × String)).map (fun p => Elem.edge p.1 p.2),
        none, false)) ∧
    (contextMenuDiscover (List.replicate 151 sampleNode) [] [] =
      ([], some ⟨(List.replicate 151 sampleNode).filter fun n =>
          decide (n.id ∉ nodeIds []), []⟩, true)) ∧
    (nodeIds (confirmLargeDiscovery ⟨[sampleNode], []⟩ [])).Nodup := by
  refine ⟨(claim1_threshold_gating _ _ _).1 (by decide),
    (claim1_threshold_gating _ _ _).2.1 (by decide),
    ((claim1_threshold_gating [] [] []).2.2 ⟨[sampleNode], []⟩ []).2.2 (by decide)⟩

/-- C2 counterexample: the spec scenario itself — a single seed `cnn.com`
whose predecessor records are `[a.com, b.com, a.com]` (the duplicate edge to
`a.com`). The claim predicts an aggregated count of 1 for `a.com` (hence an
empty result at `min_connections = 2`); the code counts each raw record,
yielding count 2 and a nonempty result. -/
theorem claim2_counterexample :
    discover stDupNeighbor ["cnn.com"] 2 "backlinks" =
      [{ domain := "a.com", connections := 2 }] ∧
    rawIncidence stDupNeighbor "backlinks"
      (validSeedIds stDupNeighbor ["cnn.com"]) 1 = 2 := by
  exact ⟨by decide, by decide⟩

/-- C2 amended: the aggregation counts each raw (seed, neighbor) record
occurrence — a neighbor appearing `k` times in one seed's neighbor list
contributes `k`, not 1 — while a neighbor that is itself a seed id is never
counted: the dict holds `(n, c)` exactly when `n` is a non-seed id whose
total raw incidence across the seeds' neighbor lists is `c ≥ 1`. -/
theorem claim2_amended (st : Store) (direction : String) (seedIds : List Int)
    (n : Int) (c : Nat) :
    (n, c) ∈ countNeighbors st direction seedIds ↔
      (n ∉ seedIds ∧ 0 < rawIncidence st direction seedIds n ∧
        c = rawIncidence st direction seedIds n) :=
  mem_countNeighbors st direction seedIds n c

/-- C3 counterexample: one seed whose two neighbors have equal counts and are
encountered in anti-lexical order `[b.com, a.com]`; the result keeps that
encounter order even though `a.com < b.com` lexically. -/
theorem claim3_counterexample :
    discover stTieOrder ["s.com"] 1 "backlinks" =
      [{ domain := "b.com", connections := 1 },
       { domain := "a.com", connections := 1 }] ∧
    "a.com".data < "b.com".data := by
  exact ⟨by decide, by decide⟩

/-- C3 amended: the result is sorted in non-increasing order of connection
count, and rows with equal counts appear in the order the aggregation first
encountered them (the stable sort preserves the filtered rows' relative
order within each count class); the tie order is not lexical. -/
theorem claim3_amended (st : Store) (seedDomains : List String)
    (minConnections : Nat) (direction : String) :
    ((discover st seedDomains minConnections direction).Pairwise
      fun a b => b.connections ≤ a.connections) ∧
    ∀ c, (discover st seedDomains minConnections direction).filter
        (fun r => decide (r.connections = c)) =
      (buildRows st minConnections
        (countNeighbors st direction (validSeedIds st seedDomains))).filter
        (fun r => decide (r.connections = c)) := by
  by_cases hS : validSeedIds st seedDomains = []
  · constructor
    · simp [discover, hS]
    · intro c
      rw [hS]
      simp [discover, hS, countNeighbors, buildRows]
  · simp only [discover, if_neg hS]
    exact ⟨sortRowsDesc_pairwise _, fun c => sortRowsDesc_filter c _⟩

/-- C4 counterexample: the hop counter is incremented even when the expansion
is not applied — an empty discovery result takes the counter from 0 to 1,
and so does a large result that is only staged as a pending merge. -/
theorem claim4_counterexample :
    ((contextMenuDiscoverFull exEmptyResult ["a.com"] "backlinks" 5
      []).2.hopCounter = 1) ∧
    ((contextMenuDiscoverFull exLargeResult ["a.com"] "backlinks" 5
      []).1.2.1.isSome = true) ∧
    ((contextMenuDiscoverFull exLargeResult ["a.com"] "backlinks" 5
      []).2.hopCounter = 1) := by
  exact ⟨rfl, by decide, rfl⟩

/-- C4 amended: the hop counter is monotonically non-decreasing and increases
by exactly one per discovery invocation (`discover_neighbors`), regardless of
whether the result is empty or the merge is staged rather than applied. -/
theorem claim4_amended (ex : GraphExplorer) (selected seedDomains : List String)
    (direction : String) (minConnections : Nat) (current : List Elem) :
    ((contextMenuDiscoverFull ex selected direction minConnections
        current).2.hopCounter = ex.hopCounter + 1) ∧
    (ex.hopCounter ≤ (contextMenuDiscoverFull ex selected direction
        minConnections current).2.hopCounter) ∧
    ((discoverNeighbors ex seedDomains minConnections
        direction).2.2.hopCounter = ex.hopCounter + 1) := by
  have h1 : (contextMenuDiscoverFull ex selected direction minConnections
      current).2.hopCounter = ex.hopCounter + 1 := rfl
  exact ⟨h1, by rw [h1]; exact Nat.le_succ _, rfl⟩

/-- C5: deletion removes exactly the selected nodes and every edge incident
to a selected id, in one filter pass (the result is a sublist, so untouched
elements are unchanged and in order); if every edge endpoint referred to an
existing node beforehand, no remaining edge references a missing node. -/
theorem claim5_delete_atomic (selectedIds : List String) (current : List Elem)
    (hwf : ∀ s t, Elem.edge s t ∈ current →
      s ∈ nodeIds current ∧ t ∈ nodeIds current) :
    (∀ d : NodeData, Elem.node d ∈ deleteSelectedNodes selectedIds current ↔
      (Elem.node d ∈ current ∧ d.id ∉ selectedIds)) ∧
    (∀ s t, Elem.edge s t ∈ deleteSelectedNodes selectedIds current ↔
      (Elem.edge s t ∈ current ∧ s ∉ selectedIds ∧ t ∉ selectedIds)) ∧
    (∀ s t, Elem.edge s t ∈ deleteSelectedNodes selectedIds current →
      (s ∈ nodeIds (deleteSelectedNodes selectedIds current) ∧
       t ∈ nodeIds (deleteSelectedNodes selectedIds current))) ∧
    (deleteSelectedNodes selectedIds current).Sublist current := by
  have hnode : ∀ d : NodeData,
      Elem.node d ∈ deleteSelectedNodes selectedIds current ↔
        (Elem.node d ∈ current ∧ d.id ∉ selectedIds) := by
    intro d
    simp [deleteSelectedNodes, List.mem_filter]
  have hedge : ∀ s t,
      Elem.edge s t ∈ deleteSelectedNodes selectedIds current ↔
        (Elem.edge s t ∈ current ∧ s ∉ selectedIds ∧ t ∉ selectedIds) := by
    intro s t
    simp [deleteSelectedNodes, List.mem_filter]
  refine ⟨hnode, hedge, ?_, List.filter_sublist current⟩
  intro s t hmem
  obtain ⟨hcur, hs, ht⟩ := (hedge s t).mp hmem
  obtain ⟨hsn, htn⟩ := hwf s t hcur
  constructor
  · obtain ⟨d, hd, hdi⟩ := mem_nodeIds.mp hsn
    refine mem_nodeIds.mpr ⟨d, (hnode d).mpr ⟨hd, ?_⟩, hdi⟩
    rw [hdi]
    exact hs
  · obtain ⟨d, hd, hdi⟩ := mem_nodeIds.mp htn
    refine mem_nodeIds.mpr ⟨d, (hnode d).mpr ⟨hd, ?_⟩, hdi⟩
    rw [hdi]
    exact ht

/-- C5 witness: deleting `b` from the two-node graph with the edge `a → b`
keeps the edge out (its target is selected) and yields a sublist. -/
theorem claim5_witness :
    (Elem.edge "a" "b" ∈ deleteSelectedNodes ["b"] demoCurrent ↔
      (Elem.edge "a" "b" ∈ demoCurrent ∧ "a" ∉ (["b"] : List String) ∧
        "b" ∉ (["b"] : List String))) ∧
    (deleteSelectedNodes ["b"] demoCurrent).Sublist demoCurrent := by
  have hwf : ∀ s t, Elem.edge s t ∈ demoCurrent →
      s ∈ nodeIds demoCurrent ∧ t ∈ nodeIds demoCurrent := by
    intro s t h
    simp only [demoCurrent, List.mem_cons, List.not_mem_nil, or_false] at h
    rcases h with h | h | h
    · exact Elem.noConfusion h
    · exact Elem.noConfusion h
    · injection h with h1 h2
      subst h1
      subst h2
      refine ⟨by decide, by decide⟩
  have h := claim5_delete_atomic ["b"] demoCurrent hwf
  exact ⟨h.2.1 "a" "b", h.2.2.2⟩

/-- C6 counterexample: a three-entry vertex dictionary whose first entry is
the only seed; the validator still scans all 3 entries instead of stopping
after entry 1, because `_load_domain_set` always reads the whole file. -/
theorem claim6_counterexample :
    validateSeedsScan demoVertices ["a"] = ((["a"], []), 3) ∧ (1 : Nat) < 3 := by
  exact ⟨by decide, by decide⟩

/-- C6 amended: `validate_seeds` builds its domain set by scanning every
entry of the backing vertex dictionary — the number of scanned entries equals
the dictionary length, independent of the seed set — and then answers by set
membership; there is no early termination. -/
theorem claim6_amended (vertices seedDomains : List String) :
    (validateSeedsScan vertices seedDomains).2 = vertices.length ∧
    ∀ seeds2 : List String,
      (validateSeedsScan vertices seeds2).2 =
        (validateSeedsScan vertices seedDomains).2 := by
  have h : ∀ s : List String,
      (validateSeedsScan vertices s).2 = vertices.length := by
    intro s
    simp only [validateSeedsScan]
    exact loadDomainSetScan_scanned vertices
  exact ⟨h seedDomains, fun s2 => by rw [h s2, h seedDomains]⟩

/-- C7: in the set-intersection analyzer, a seed of either group is a node of
the output graph exactly when some shared backlinker has an edge to it in the
corresponding discovery result (assuming each discovery excludes its own
seeds, the groups are disjoint, and each result's edge targets lie in its own
group), and the shared set is exactly the intersection of the two results'
domain sets. -/
theorem claim7_intersection_pruning (groupA groupB : List String)
    (aDisc bDisc : DiscoveryOutput)
    (hA : ∀ x ∈ groupA, x ∉ aDisc.nodes)
    (hB : ∀ x ∈ groupB, x ∉ bDisc.nodes)
    (hAB : ∀ x ∈ groupA, x ∉ groupB)
    (hta : ∀ p ∈ aDisc.edges, p.2 ∈ groupA)
    (htb : ∀ p ∈ bDisc.edges, p.2 ∈ groupB) :
    (∀ s ∈ groupA, (s ∈ (buildNetwork aDisc bDisc).nodeIds ↔
      ∃ b, b ∈ sharedBacklinkers aDisc bDisc ∧ (b, s) ∈ aDisc.edges)) ∧
    (∀ s ∈ groupB, (s ∈ (buildNetwork aDisc bDisc).nodeIds ↔
      ∃ b, b ∈ sharedBacklinkers aDisc bDisc ∧ (b, s) ∈ bDisc.edges)) ∧
    (∀ d, d ∈ sharedBacklinkers aDisc bDisc ↔
      (d ∈ aDisc.nodes ∧ d ∈ bDisc.nodes)) := by
  refine ⟨?_, ?_, fun d => mem_sharedBacklinkers⟩
  · intro s hsA
    have hsShared : s ∉ sharedBacklinkers aDisc bDisc := fun h =>
      hA s hsA (mem_sharedBacklinkers.mp h).1
    have hsB : s ∉ linkedSeeds bDisc.edges (sharedBacklinkers aDisc bDisc) := by
      intro h
      obtain ⟨p, hpe, hps, hp2⟩ := mem_linkedSeeds.mp h
      exact hAB s hsA (hp2 ▸ htb p hpe)
    rw [mem_buildNetwork_nodeIds]
    constructor
    · rintro (h | h | h)
      · obtain ⟨p, hpe, hps, hp2⟩ := mem_linkedSeeds.mp h
        subst hp2
        exact ⟨p.1, hps, by simpa using hpe⟩
      · exact absurd h hsB
      · exact absurd h hsShared
    · rintro ⟨b, hbs, hbe⟩
      exact Or.inl (mem_linkedSeeds.mpr ⟨(b, s), hbe, hbs, rfl⟩)
  · intro s hsB
    have hsShared : s ∉ sharedBacklinkers aDisc bDisc := fun h =>
      hB s hsB (mem_sharedBacklinkers.mp h).2
    have hsA2 : s ∉ linkedSeeds aDisc.edges (sharedBacklinkers aDisc bDisc) := by
      intro h
      obtain ⟨p, hpe, hps, hp2⟩ := mem_linkedSeeds.mp h
      exact hAB p.2 (hta p hpe) (hp2 ▸ hsB)
    rw [mem_buildNetwork_nodeIds]
    constructor
    · rintro (h | h | h)
      · exact absurd h hsA2
      · obtain ⟨p, hpe, hps, hp2⟩ := mem_linkedSeeds.mp h
        subst hp2
        exact ⟨p.1, hps, by simpa using hpe⟩
      · exact absurd h hsShared
    · rintro ⟨b, hbs, hbe⟩
      exact Or.inr (Or.inl (mem_linkedSeeds.mpr ⟨(b, s), hbe, hbs, rfl⟩))

/-- C7 witness: the spec scenario — groupA backlinked by `{x, y}`, groupB by
`{y, z}`, shared set `{y}`; the groupA seed `a1` is in the output graph
because `y` links to it. -/
theorem claim7_witness :
    "a1" ∈ (buildNetwork ⟨["x", "y"], [("x", "a1"), ("y", "a1")]⟩
      ⟨["y", "z"], [("y", "b1")]⟩).nodeIds := by
  have h := claim7_intersection_pruning ["a1"] ["b1"]
    ⟨["x", "y"], [("x", "a1"), ("y", "a1")]⟩ ⟨["y", "z"], [("y", "b1")]⟩
    (by decide) (by decide) (by decide) (by decide) (by decide)
  exact (h.1 "a1" (by decide)).mpr ⟨"y", by decide, by decide⟩

/-- C9: every discovery entry point of `GraphBridge` invoked while the store
is not loaded propagates the `_ensure_loaded` failure to its caller as an
explicit error, never a normal result; with a loaded store, seed-validation
problems are recovered into diagnostic counts (a found/not-found partition
covering every seed) without raising. -/
theorem claim9_error_propagation (seedDomains : List String)
    (minConnections : Nat) (direction : String) :
    (GraphBridge.discoverE ⟨none⟩ seedDomains minConnections direction =
      Except.error notLoadedMsg) ∧
    (GraphBridge.discoverFastE ⟨none⟩ seedDomains minConnections direction =
      Except.error notLoadedMsg) ∧
    (GraphBridge.validateSeedsE ⟨none⟩ seedDomains =
      Except.error notLoadedMsg) ∧
    (GraphBridge.discoverBacklinksE ⟨none⟩ seedDomains minConnections =
      Except.error notLoadedMsg) ∧
    (GraphBridge.discoverOutlinksE ⟨none⟩ seedDomains minConnections =
      Except.error notLoadedMsg) ∧
    (∀ st : Store, GraphBridge.validateSeedsE ⟨some st⟩ seedDomains =
        Except.ok (validateSeeds st seedDomains) ∧
      (validateSeeds st seedDomains).1.length +
        (validateSeeds st seedDomains).2.length = seedDomains.length) := by
  exact ⟨rfl, rfl, rfl, rfl, rfl,
    fun st => ⟨rfl, validateSeeds_length st seedDomains⟩⟩

/-- C10: when the parsed seed list is non-empty and longer than 10000, the
web app returns the empty table and the cap error message, without consulting
the bridge at all (the result is identical for any two bridges); the cap
check runs on the parsed seed list of the input text. -/
theorem claim10_seed_cap (b1 b2 : GraphBridge) (minConnections : Nat)
    (direction : String) (seeds : List String)
    (h1 : seeds ≠ []) (h2 : 10000 < seeds.length) :
    (∀ text, discoverDomains b1 minConnections direction text =
      discoverDomainsCore b1 minConnections direction (parseSeeds text)) ∧
    (discoverDomainsCore b1 minConnections direction seeds =
      discoverDomainsCore b2 minConnections direction seeds) ∧
    discoverDomainsCore b1 minConnections direction seeds =
      ([], capErrMsg seeds.length) := by
  have hcore : ∀ b : GraphBridge,
      discoverDomainsCore b minConnections direction seeds =
        ([], capErrMsg seeds.length) := by
    intro b
    simp only [discoverDomainsCore, if_neg h1, if_pos h2]
  exact ⟨fun text => rfl, by rw [hcore b1, hcore b2], hcore b1⟩

/-- C10 witness: 10001 copies of `a.com` trip the cap for an unloaded and a
loaded bridge alike, with the documented error message. -/
theorem claim10_witness :
    (discoverDomainsCore ⟨none⟩ 3 "backlinks" (List.replicate 10001 "a.com") =
      discoverDomainsCore ⟨some stVoid⟩ 3 "backlinks"
        (List.replicate 10001 "a.com")) ∧
    discoverDomainsCore ⟨none⟩ 3 "backlinks" (List.replicate 10001 "a.com") =
      ([], capErrMsg (List.replicate 10001 "a.com").length) := by
  have h := claim10_seed_cap ⟨none⟩ ⟨some stVoid⟩ 3 "backlinks"
    (List.replicate 10001 "a.com")
    (by
      intro heq
      have hlen := congrArg List.length heq
      rw [List.length_replicate, List.length_nil] at hlen
      exact absurd hlen (by omega))
    (by
      rw [List.length_replicate]
      omega)
  exact ⟨h.2.1, h.2.2⟩

/-- C8 counterexample: the claimed equivalence fails as stated for a store
that does implement the server-side filter contract. With the single seed
`s.com` whose predecessor list holds `x.com` twice, and `min_connections = 2`,
the counting path `discover` counts the raw records and returns `{x.com}`,
while the contract counts distinct seeds, so a contract-satisfying fast path
returns the empty set — the two domain sets differ. -/
theorem claim8_counterexample :
    SharedContract (storeShared stDupShared "backlinks")
      (storeNeighbors stDupShared "backlinks")
      (validSeedIds stDupShared ["s.com"]) 2
      (validSeedIds stDupShared ["s.com"]).length ∧
    (discover stDupShared ["s.com"] 2 "backlinks").map Row.domain = ["x.com"] ∧
    discoverFast stDupShared ["s.com"] 2 "backlinks" = [] ∧
    ¬ (((discover stDupShared ["s.com"] 2 "backlinks").map Row.domain).toFinset
        = (discoverFast stDupShared ["s.com"] 2 "backlinks").toFinset) := by
  refine ⟨?_, by decide, by decide, by decide⟩
  intro v
  constructor
  · intro h
    exact absurd (h : v ∈ ([] : List Int)) (List.not_mem_nil v)
  · rintro ⟨h1, h2⟩
    have hlen : (validSeedIds stDupShared ["s.com"]).length = 1 := by decide
    rw [hlen] at h2
    omega

/-- C8 amended: assuming the Graph Store's server-side filter implements its
contract (`SharedContract`, modelled from the spec) and additionally that the
validated seed id list and every neighbor list are duplicate-free (with
labels that round-trip with ids, are nonempty, and valid seed domains already
lowercase), the counting path `discover` and the fast path `discover_fast`
return exactly the same set of domains, for every seed list, threshold and
direction. Without the duplicate-freedom assumptions the paths can disagree,
because `discover` counts raw records while the contract counts distinct
seeds. -/
theorem claim8_fast_refines_discover (st : Store) (seedDomains : List String)
    (minConnections : Nat) (direction : String)
    (hnds : (validSeedIds st seedDomains).Nodup)
    (hnbr : ∀ i, (storeNeighbors st direction i).Nodup)
    (hround : ∀ i d, st.idToLabel i = some d → st.labelToId d = i)
    (hinv : ∀ d ∈ validSeedDomains st seedDomains,
      st.idToLabel (st.labelToId d) = some d)
    (hne : ∀ i d, st.idToLabel i = some d → d ≠ "")
    (hlow : ∀ d ∈ validSeedDomains st seedDomains, pyLower d = d)
    (hcontract : SharedContract (storeShared st direction)
      (storeNeighbors st direction) (validSeedIds st seedDomains)
      minConnections (validSeedIds st seedDomains).length) :
    ((discover st seedDomains minConnections direction).map Row.domain).toFinset
      = (discoverFast st seedDomains minConnections direction).toFinset := by
  have hc : ∀ v, v ∈ storeShared st direction (validSeedIds st seedDomains)
      minConnections (validSeedIds st seedDomains).length ↔
      (minConnections ≤ seedLinkCount (storeNeighbors st direction)
          (validSeedIds st seedDomains) v ∧
        seedLinkCount (storeNeighbors st direction)
          (validSeedIds st seedDomains) v ≤
          (validSeedIds st seedDomains).length) := hcontract
  by_cases hS : validSeedIds st seedDomains = []
  · have hD : validSeedDomains st seedDomains = [] := by
      have h := validSeedIds_eq_map st seedDomains
      rw [hS] at h
      exact List.map_eq_nil_iff.mp h.symm
    simp [discover, discoverFast, hS, hD]
  · have hSD := validSeedIds_eq_map st seedDomains
    have hD : validSeedDomains st seedDomains ≠ [] := by
      intro h
      apply hS
      rw [hSD, h]
      rfl
    have hids : domainsToIds st (validSeedDomains st seedDomains) =
        validSeedIds st seedDomains := by
      rw [hSD]
      apply filterMap_eq_map_of
      intro d hd
      have h1 : pyLower d = d := hlow d hd
      have h2 : 0 ≤ st.labelToId d := labelToId_nonneg_of_mem hd
      dsimp only
      rw [h1, if_pos h2]
    by_cases hm : 1 ≤ minConnections
    swap
    · exfalso
      obtain ⟨v, hv⟩ := exists_int_not_mem
        (storeShared st direction (validSeedIds st seedDomains) minConnections
          (validSeedIds st seedDomains).length)
      exact hv ((hc v).mpr ⟨by omega, seedLinkCount_le _ _ _⟩)
    apply Finset.ext
    intro d
    simp only [List.mem_toFinset]
    rw [mem_discover_domain, discoverFast_eq, if_neg hD]
    have hcall : sharedNeighborsCall (storeShared st direction) st
        (validSeedDomains st seedDomains) minConnections =
        (storeShared st direction (validSeedIds st seedDomains) minConnections
          (validSeedIds st seedDomains).length).filterMap st.idToLabel := by
      simp only [sharedNeighborsCall, hids, if_neg hS]
    rw [List.mem_filter, hcall, List.mem_filterMap]
    simp only [decide_eq_true_eq]
    constructor
    · rintro ⟨-, n, hnS, hmc, hpos, hl, hne2⟩
      refine ⟨⟨n, ?_, hl⟩, ?_⟩
      · apply (hc n).mpr
        have hslc := seedLinkCount_eq_rawIncidence st direction hnds hnbr n
        rw [hslc]
        refine ⟨hmc, ?_⟩
        have hle := seedLinkCount_le (storeNeighbors st direction)
          (validSeedIds st seedDomains) n
        rw [hslc] at hle
        exact hle
      · intro hdD
        apply hnS
        rw [hSD]
        have hr := hround n d hl
        rw [← hr]
        exact List.mem_map_of_mem st.labelToId hdD
    · rintro ⟨⟨v, hvS, hvl⟩, hdD⟩
      obtain ⟨hc1, hc2⟩ := (hc v).mp hvS
      have hslc := seedLinkCount_eq_rawIncidence st direction hnds hnbr v
      rw [hslc] at hc1
      refine ⟨hS, v, ?_, hc1, by omega, hvl, hne v d hvl⟩
      intro hvmem
      rw [hSD] at hvmem
      obtain ⟨d2, hd2D, hd2v⟩ := List.mem_map.mp hvmem
      have hi := hinv d2 hd2D
      rw [hd2v, hvl] at hi
      apply hdD
      rw [Option.some.inj hi]
      exact hd2D

/-- C8 witness: two seeds `a.com`, `b.com` sharing the single predecessor
`x.com`, with the server-side filter returning exactly that vertex — both
paths produce the domain set `{x.com}`. -/
theorem claim8_witness :
    ((discover stSharedPair ["a.com", "b.com"] 1 "backlinks").map
        Row.domain).toFinset
      = (discoverFast stSharedPair ["a.com", "b.com"] 1 "backlinks").toFinset := by
  have hSval : validSeedIds stSharedPair ["a.com", "b.com"] = [0, 1] := by
    decide
  have hDval : validSeedDomains stSharedPair ["a.com", "b.com"] =
      ["a.com", "b.com"] := by decide
  refine claim8_fast_refines_discover stSharedPair ["a.com", "b.com"] 1
    "backlinks" (by decide) ?_ ?_ ?_ ?_ ?_ ?_
  · intro i
    show (if i = 0 then [(5 : Int)] else if i = 1 then [(5 : Int)]
      else ([] : List Int)).Nodup
    split_ifs <;> simp
  · intro i d h
    simp only [stSharedPair] at h ⊢
    split_ifs at h with h0 h1 h5
    · obtain rfl := Option.some.inj h
      subst h0
      decide
    · obtain rfl := Option.some.inj h
      subst h1
      decide
    · obtain rfl := Option.some.inj h
      subst h5
      decide
  · intro d hd
    rw [hDval] at hd
    rcases List.mem_cons.mp hd with rfl | hd
    · decide
    rcases List.mem_cons.mp hd with rfl | hd
    · decide
    exact absurd hd (List.not_mem_nil _)
  · intro i d h
    simp only [stSharedPair] at h
    split_ifs at h with h0 h1 h5
    · obtain rfl := Option.some.inj h
      decide
    · obtain rfl := Option.some.inj h
      decide
    · obtain rfl := Option.some.inj h
      decide
  · intro d hd
    rw [hDval] at hd
    rcases List.mem_cons.mp hd with rfl | hd
    · decide
    rcases List.mem_cons.mp hd with rfl | hd
    · decide
    exact absurd hd (List.not_mem_nil _)
  · intro v
    constructor
    · intro hvmem
      have hv5 : v ∈ [(5 : Int)] := hvmem
      have hv : v = 5 := by simpa using hv5
      subst hv
      exact ⟨by decide, by decide⟩
    · rintro ⟨h1, h2⟩
      by_cases hv : v = 5
      · subst hv
        show (5 : Int) ∈ [(5 : Int)]
        decide
      · exfalso
        have hslc0 : seedLinkCount (storeNeighbors stSharedPair "backlinks")
            (validSeedIds stSharedPair ["a.com", "b.com"]) v = 0 := by
          rw [seedLinkCount, List.length_eq_zero, List.filter_eq_nil_iff]
          intro a ha
          simp only [decide_eq_true_eq]
          intro hmem
          rw [hSval] at ha
          have ha2 := List.mem_dedup.mp ha
          rcases List.mem_cons.mp ha2 with rfl | ha2
          · rw [show storeNeighbors stSharedPair "backlinks" 0 = [(5 : Int)]
              from rfl] at hmem
            exact hv (by simpa using hmem)
          rcases List.mem_cons.mp ha2 with rfl | ha2
          · rw [show storeNeighbors stSharedPair "backlinks" 1 = [(5 : Int)]
              from rfl] at hmem
            exact hv (by simpa using hmem)
          exact absurd ha2 (List.not_mem_nil _)
        rw [hslc0] at h1
        exact absurd h1 (by omega)

end NetNeighbors
